import Mathlib

/-!
Shallow embedding of the threshold BBS+ signing subsystem of the repository
(file `src/bbs_plus/src/threshold/threshold_bbs_plus.rs`), together with
models of the collaborators that file uses but whose sources are not part of
the staged tree (the coin-toss and zero-sharing parties, the error enum, the
signature parameters and the `compute_R_and_u` helper).  The pairing scalar
field `E::ScalarField` is embedded as an arbitrary field `F` with decidable
equality and the group `E::G1` as an additive commutative group `G` that is a
module over `F`.  Rust panics (index out of bounds, `Option::unwrap` on
`None`) are made observable through the `Outcome` type.
-/

namespace ThresholdBBS

/-- `ParticipantId` is a small unsigned integer (`u16` in the source); no
claim involves its overflow behaviour, so it is embedded as `Nat`. -/
abbrev ParticipantId := Nat

/-- The error enum `BBSPlusError` lives in `bbs_plus/src/error.rs`, which is
not part of the staged tree.  The four variants below the first are exactly
the ones `threshold_bbs_plus.rs` constructs; `IncompleteRound` is modelled
from the spec (section 7): `finish()` called before all expected peers have
contributed. -/
inductive BBSPlusError where
  | NoMessageToSign
  | MessageCountIncompatibleWithSigParams (given supported : Nat)
  | IncorrectEByParticipant (id : ParticipantId)
  | IncorrectSByParticipant (id : ParticipantId)
  | IncompleteRound
  deriving DecidableEq

/-- Result of running a Rust function that can also panic: `panic` models a
process abort (an out-of-bounds index or `Option::unwrap` on `None`),
`err e` models `Err(e)` and `ok a` models `Ok(a)`. -/
inductive Outcome (α : Type) where
  | panic
  | err (e : BBSPlusError)
  | ok (a : α)
  deriving DecidableEq

/-- `Phase1Output` of `threshold_bbs_plus.rs` (lines 26-37): the per-signer
result of the randomness-generation phase. -/
structure Phase1Output (F : Type) where
  id : ParticipantId
  batch_size : Nat
  r : List F
  e : List F
  s : List F
  masked_signing_key_shares : List F
  masked_rs : List F
  others : List ParticipantId
  deriving DecidableEq

/-- `BBSPlusSignatureShare` of `threshold_bbs_plus.rs` (lines 41-47): one
signer contribution toward a single signature. -/
structure BBSPlusSignatureShare (F G : Type) where
  id : ParticipantId
  e : F
  s : F
  u : F
  R : G
  deriving DecidableEq

/-- The final BBS+ signature `SignatureG1 {A, e, s}` (its own file is not
part of the staged tree; the shape is fixed by the aggregate code and the
spec, section 3). -/
structure SignatureG1 (F G : Type) where
  A : G
  e : F
  s : F
  deriving DecidableEq

section Aggregate

variable {F G : Type} [Field F] [DecidableEq F] [AddCommGroup G] [Module F G]

/-- The loop body of `BBSPlusSignatureShare::aggregate` (lines 169-183):
`i` is the `enumerate` counter, the remaining four arguments are the
accumulators `sum_R`, `sum_u`, `expected_e`, `expected_s`.  After the loop
the code computes `A = sum_R * sum_u.inverse().unwrap()`: `inverse()` is
`None` exactly when `sum_u` is zero, in which case `unwrap` panics. -/
def aggregateLoop : List (BBSPlusSignatureShare F G) → Nat → G → F → F → F →
    Outcome (SignatureG1 F G)
  | [], _, sum_R, sum_u, expected_e, expected_s =>
      if sum_u = 0 then Outcome.panic
      else Outcome.ok ⟨sum_u⁻¹ • sum_R, expected_e, expected_s⟩
  | share :: rest, i, sum_R, sum_u, expected_e, expected_s =>
      if i = 0 then
        aggregateLoop rest (i + 1) (sum_R + share.R) (sum_u + share.u) share.e share.s
      else if expected_e ≠ share.e then
        Outcome.err (BBSPlusError.IncorrectEByParticipant share.id)
      else if expected_s ≠ share.s then
        Outcome.err (BBSPlusError.IncorrectSByParticipant share.id)
      else
        aggregateLoop rest (i + 1) (sum_R + share.R) (sum_u + share.u) expected_e expected_s

/-- `BBSPlusSignatureShare::aggregate` (lines 163-190). -/
def aggregate (sig_shares : List (BBSPlusSignatureShare F G)) :
    Outcome (SignatureG1 F G) :=
  aggregateLoop sig_shares 0 0 0 0 0

end Aggregate

section Phase1Model

variable {F : Type} [Field F] [DecidableEq F]

/-- A deterministic model of `RngCore`: a stream of field elements together
with a cursor.  Each draw returns the element under the cursor and advances
it, so successive draws are distinct positions of one stream. -/
structure Rng (F : Type) where
  stream : Nat → F
  pos : Nat

/-- One draw from the random stream. -/
def Rng.next (rng : Rng F) : F × Rng F :=
  (rng.stream rng.pos, ⟨rng.stream, rng.pos + 1⟩)

/-- `n` successive draws from the random stream. -/
def Rng.sample : Rng F → Nat → List F × Rng F
  | rng, 0 => ([], rng)
  | rng, n + 1 =>
      let (v, rng1) := rng.next
      let (vs, rng2) := rng1.sample n
      (v :: vs, rng2)

/-- Modelled from the spec: a coin-toss commitment binds the sampled share
vector, the salt, the participant id and the protocol id (section 4.1).  The
hashing itself is behind the external `DynDigest` capability, so the
commitment is embedded as the bound data; the binding check compares it for
equality, which is what a collision-free hash gives. -/
structure Commitments (F : Type) where
  bound_id : ParticipantId
  bound_protocol_id : List Nat
  bound_salt : F
  bound_shares : List F
  deriving DecidableEq

/-- Modelled from the spec: the state of one party of the joint coin-toss
protocol (`threshold/cointoss.rs`, not part of the staged tree).  After the
reveal round, `other_shares` holds each revealed peer contribution, keyed by
the peer id (section 4.1). -/
structure CointossParty (F : Type) where
  id : ParticipantId
  protocol_id : List Nat
  salt : F
  own_shares : List F
  other_shares : List (ParticipantId × List F)
  deriving DecidableEq

/-- Modelled from the spec: `cointoss::Party::commit(rng, id, count,
protocol_id)` samples `count` local random field elements plus a random
salt and returns the protocol state together with the binding commitment to
broadcast (section 4.1). -/
def CointossParty.commit (rng : Rng F) (id : ParticipantId) (count : Nat)
    (protocol_id : List Nat) : (CointossParty F × Commitments F) × Rng F :=
  let (shares, rng1) := rng.sample count
  let (salt, rng2) := rng1.next
  ((⟨id, protocol_id, salt, shares, []⟩, ⟨id, protocol_id, salt, shares⟩), rng2)

/-- Modelled from the spec: the joint randomness for slot `k` is the field
sum of every participant contribution for slot `k` — the own share plus
every revealed peer share (section 4.1). -/
def CointossParty.jointRandomness (p : CointossParty F) : List F :=
  (List.range p.own_shares.length).map fun k =>
    p.own_shares.getD k 0 + (p.other_shares.map fun pr => pr.2.getD k 0).sum

/-- Modelled from the spec: the state of one party of the zero-sharing
protocol (`threshold/zero_sharing.rs`, not part of the staged tree).  The
exchange is keyed per counterpart: `own_pair_shares` holds, per peer, the
salt and the `count` slot values this party sampled for that pairwise
exchange, and `peer_pair_shares` the values revealed by that peer
(section 4.2). -/
structure ZeroSharingParty (F : Type) where
  id : ParticipantId
  count : Nat
  others : List ParticipantId
  protocol_id : List Nat
  own_pair_shares : List (ParticipantId × F × List F)
  peer_pair_shares : List (ParticipantId × List F)
  deriving DecidableEq

/-- Sampling helper for `ZeroSharingParty.init`: for each peer in order,
draw `count` slot values and then a salt for the pairwise exchange with that
peer. -/
def samplePairShares : Rng F → List ParticipantId → Nat →
    List (ParticipantId × F × List F) × Rng F
  | rng, [], _ => ([], rng)
  | rng, j :: rest, count =>
      let (shares, rng1) := rng.sample count
      let (salt, rng2) := rng1.next
      let (tail, rng3) := samplePairShares rng2 rest count
      ((j, salt, shares) :: tail, rng3)

/-- Modelled from the spec: `zero_sharing::Party::init(rng, id, count,
others, protocol_id)` starts one pairwise commit-then-reveal exchange per
peer and returns the per-peer commitments, keyed by the counterpart
(section 4.2). -/
def ZeroSharingParty.init (rng : Rng F) (id : ParticipantId) (count : Nat)
    (others : List ParticipantId) (protocol_id : List Nat) :
    (ZeroSharingParty F × List (ParticipantId × Commitments F)) × Rng F :=
  let (own, rng1) := samplePairShares rng others count
  ((⟨id, count, others, protocol_id, own, []⟩,
    own.map fun t => (t.1, ⟨id, protocol_id, t.2.1, t.2.2⟩)), rng1)

/-- Modelled from the spec: the total zero-share offset for slot `k` is the
sum over all peers of the jointly tossed pairwise value for that peer and
slot, the lower-indexed party of each pair keeping the value and the
counterpart its negation, so grouping all participants cancels to zero
(section 4.2).  It fails when a peer contribution is missing
(sections 4.3, 7). -/
def ZeroSharingParty.computeZeroShares (p : ZeroSharingParty F) :
    Except BBSPlusError (List F) :=
  if p.others.all fun j =>
      (p.own_pair_shares.lookup j).isSome && (p.peer_pair_shares.lookup j).isSome then
    Except.ok <| (List.range p.count).map fun k =>
      (p.others.map fun j =>
        let pairJoint := ((p.own_pair_shares.lookup j).getD (0, [])).2.getD k 0
          + ((p.peer_pair_shares.lookup j).getD []).getD k 0
        if p.id < j then pairJoint else -pairJoint).sum
  else Except.error BBSPlusError.IncompleteRound

/-- The `Phase1` state (`threshold/randomness_generation_phase.rs`, not part
of the staged tree; its field names are fixed by the uses in
`threshold_bbs_plus.rs` lines 64-70). -/
structure Phase1 (F : Type) where
  id : ParticipantId
  batch_size : Nat
  r : List F
  commitment_protocol : CointossParty F
  zero_sharing_protocol : ZeroSharingParty F
  deriving DecidableEq

/-- Modelled from the spec:
`Phase1::compute_joint_randomness_and_masked_arguments_to_multiply`
(`randomness_generation_phase.rs`, not part of the staged tree).  It fails
with an incomplete-round error when any expected peer contribution to either
sub-protocol is missing; otherwise it returns the peer list, the
`2*batch_size` joint coin-toss values, together with
`masked_signing_key_shares[k] = signing_key + alpha[k]` and
`masked_rs[k] = r[k] + beta[k]`, where `alpha` is the first and `beta` the
second `batch_size` half of the zero-sharing offsets (sections 4.1-4.3, 7). -/
def Phase1.compute_joint_randomness_and_masked_arguments_to_multiply
    (st : Phase1 F) (signing_key : F) :
    Except BBSPlusError (List ParticipantId × List F × List F × List F) :=
  let others := st.zero_sharing_protocol.others
  if others.all fun j => (st.commitment_protocol.other_shares.lookup j).isSome then
    match st.zero_sharing_protocol.computeZeroShares with
    | Except.error e => Except.error e
    | Except.ok zero_shares =>
        let randomness := st.commitment_protocol.jointRandomness
        let alpha := zero_shares.take st.batch_size
        let beta := zero_shares.drop st.batch_size
        let masked_signing_key_shares := alpha.map fun a => signing_key + a
        let masked_rs := (st.r.zip beta).map fun pr => pr.1 + pr.2
        Except.ok (others, randomness, masked_signing_key_shares, masked_rs)
  else Except.error BBSPlusError.IncompleteRound

/-- `Phase1::finish_for_bbs_plus` (`threshold_bbs_plus.rs` lines 77-100):
splits the `2*batch_size` joint values, the first `batch_size` as `e`
(`drain(0..batch_size)`) and the remainder as `s`. -/
def Phase1.finish_for_bbs_plus (st : Phase1 F) (signing_key : F) :
    Except BBSPlusError (Phase1Output F) :=
  let id := st.id
  let batch_size := st.batch_size
  let r := st.r
  match st.compute_joint_randomness_and_masked_arguments_to_multiply signing_key with
  | Except.error e => Except.error e
  | Except.ok (others, randomness, masked_signing_key_shares, masked_rs) =>
      Except.ok ⟨id, batch_size, r, randomness.take batch_size,
        randomness.drop batch_size, masked_signing_key_shares, masked_rs, others⟩

/-- `Phase1::init_for_bbs_plus` (`threshold_bbs_plus.rs` lines 50-75):
samples `batch_size` private `r` values, starts one coin-toss run over
`2 * batch_size` slots and one zero-sharing run over `2 * batch_size` slots
with the given peer set, and returns the state with both commitment
bundles. -/
def Phase1.init_for_bbs_plus (rng : Rng F) (batch_size : Nat)
    (id : ParticipantId) (others : List ParticipantId) (protocol_id : List Nat) :
    (Phase1 F × Commitments F × List (ParticipantId × Commitments F)) × Rng F :=
  let (r, rng1) := rng.sample batch_size
  let (cp, rng2) := CointossParty.commit rng1 id (2 * batch_size) protocol_id
  let (zp, rng3) := ZeroSharingParty.init rng2 id (2 * batch_size) others protocol_id
  ((⟨id, batch_size, r, cp.1, zp.1⟩, cp.2, zp.2), rng3)

/-- The zero-share offset a participant state assigns to slot `k` (zero when
the zero-sharing round is incomplete); the first `batch_size` slots are the
`alpha` masks of the signing-key share. -/
def zeroShareOffset (st : Phase1 F) (k : Nat) : F :=
  match st.zero_sharing_protocol.computeZeroShares with
  | Except.ok zs => zs.getD k 0
  | Except.error _ => 0

end Phase1Model

section ShareConstruction

variable {F G : Type} [Field F] [DecidableEq F] [AddCommGroup G] [Module F G]
variable [DecidableEq G]

/-- `Phase2Output` (`threshold/multiplication_phase.rs`, external
collaborator): per peer, additive shares of the two cross products per batch
slot (spec sections 3, 4.4).  Share construction consumes it opaquely. -/
structure Phase2Output (F : Type) where
  id : ParticipantId
  z_A : List (ParticipantId × List F × List F)
  z_B : List (ParticipantId × List F × List F)
  deriving DecidableEq

/-- Modelled from the spec: `SignatureParamsG1` (`setup.rs`, not part of the
staged tree).  `supported_message_count` is the number of messages the
generators support; `b` computes the blinded message commitment from the
uncommitted messages and the slot value of `s` and can fail, which is all
`threshold_bbs_plus.rs` relies on (section 4.5). -/
structure SignatureParamsG1 (F G : Type) where
  supported_message_count : Nat
  b : List (Nat × F) → F → Except BBSPlusError G

/-- `BBSPlusSignatureShare::new_with_committed_messages`
(`threshold_bbs_plus.rs` lines 135-161).  The helper `compute_R_and_u`
(`threshold/utils.rs`, not part of the staged tree) is kept as an abstract
total function argument, the spec fixing only its argument list
(section 4.5).  Every `phase1` vector is indexed at `index_in_output`
without a bounds check in the source; an out-of-bounds index is a panic. -/
def BBSPlusSignatureShare.new_with_committed_messages
    (compute_R_and_u : G → F → F → F → F → Nat → Phase2Output F → G × F)
    (commitment : G) (uncommitted_messages : List (Nat × F))
    (index_in_output : Nat) (phase1 : Phase1Output F) (phase2 : Phase2Output F)
    (sig_params : SignatureParamsG1 F G) :
    Outcome (BBSPlusSignatureShare F G) :=
  if hs : index_in_output < phase1.s.length then
    match sig_params.b uncommitted_messages (phase1.s.get ⟨index_in_output, hs⟩) with
    | Except.error e => Outcome.err e
    | Except.ok b =>
      let commitment_plus_b := b + commitment
      if hr : index_in_output < phase1.r.length then
        if he : index_in_output < phase1.e.length then
          if hm : index_in_output < phase1.masked_rs.length then
            if hk : index_in_output < phase1.masked_signing_key_shares.length then
              let Ru := compute_R_and_u commitment_plus_b
                (phase1.r.get ⟨index_in_output, hr⟩)
                (phase1.e.get ⟨index_in_output, he⟩)
                (phase1.masked_rs.get ⟨index_in_output, hm⟩)
                (phase1.masked_signing_key_shares.get ⟨index_in_output, hk⟩)
                index_in_output phase2
              Outcome.ok ⟨phase1.id, phase1.e.get ⟨index_in_output, he⟩,
                phase1.s.get ⟨index_in_output, hs⟩, Ru.2, Ru.1⟩
            else Outcome.panic
          else Outcome.panic
        else Outcome.panic
      else Outcome.panic
  else Outcome.panic

/-- `BBSPlusSignatureShare::new` (`threshold_bbs_plus.rs` lines 105-132):
validates the message list, builds the index-keyed message map and forwards
to `new_with_committed_messages` with the zero group element as
commitment. -/
def BBSPlusSignatureShare.new
    (compute_R_and_u : G → F → F → F → F → Nat → Phase2Output F → G × F)
    (messages : List F) (index_in_output : Nat) (phase1 : Phase1Output F)
    (phase2 : Phase2Output F) (sig_params : SignatureParamsG1 F G) :
    Outcome (BBSPlusSignatureShare F G) :=
  if messages.isEmpty then Outcome.err BBSPlusError.NoMessageToSign
  else if messages.length ≠ sig_params.supported_message_count then
    Outcome.err (BBSPlusError.MessageCountIncompatibleWithSigParams
      messages.length sig_params.supported_message_count)
  else
    BBSPlusSignatureShare.new_with_committed_messages compute_R_and_u 0
      messages.enum index_in_output phase1 phase2 sig_params

end ShareConstruction

instance fact_prime_five : Fact (Nat.Prime 5) := ⟨by norm_num⟩

section AggregateTheorems

variable {F G : Type} [Field F] [DecidableEq F] [AddCommGroup G] [Module F G]

/-- Once past the first share (counter nonzero), a run of the aggregation
loop over shares that all agree with the expected nonces ends at the
`unwrap`: panic when the accumulated `u` sum is zero, otherwise the
completed signature. -/
lemma aggregateLoop_all_agree (l : List (BBSPlusSignatureShare F G)) :
    ∀ i : Nat, i ≠ 0 → ∀ (sum_R : G) (sum_u ee es : F),
    (∀ sh ∈ l, sh.e = ee ∧ sh.s = es) →
    aggregateLoop l i sum_R sum_u ee es =
      if sum_u + (l.map BBSPlusSignatureShare.u).sum = 0 then Outcome.panic
      else Outcome.ok ⟨(sum_u + (l.map BBSPlusSignatureShare.u).sum)⁻¹ •
        (sum_R + (l.map BBSPlusSignatureShare.R).sum), ee, es⟩ := by
  induction l with
  | nil =>
      intro i hi sum_R sum_u ee es _
      simp [aggregateLoop]
  | cons sh t ih =>
      intro i hi sum_R sum_u ee es hc
      have h1 : sh.e = ee ∧ sh.s = es := hc sh (List.mem_cons_self _ _)
      have hrest : ∀ x ∈ t, x.e = ee ∧ x.s = es :=
        fun x hx => hc x (List.mem_cons_of_mem _ hx)
      simp only [aggregateLoop]
      rw [if_neg hi, if_neg (by simp [h1.1]), if_neg (by simp [h1.2]),
        ih (i + 1) (Nat.succ_ne_zero i) _ _ _ _ hrest]
      simp [add_assoc]

/-- Once past the first share, a run of the aggregation loop over shares of
which some disagree with the expected nonces stops at the first deviant and
reports its id. -/
lemma aggregateLoop_mismatch (l : List (BBSPlusSignatureShare F G)) :
    ∀ i : Nat, i ≠ 0 → ∀ (sum_R : G) (sum_u ee es : F),
    (∃ sh ∈ l, sh.e ≠ ee ∨ sh.s ≠ es) →
    ∃ sh ∈ l,
      (sh.e ≠ ee ∧ aggregateLoop l i sum_R sum_u ee es =
        Outcome.err (BBSPlusError.IncorrectEByParticipant sh.id)) ∨
      (sh.s ≠ es ∧ aggregateLoop l i sum_R sum_u ee es =
        Outcome.err (BBSPlusError.IncorrectSByParticipant sh.id)) := by
  induction l with
  | nil =>
      rintro i hi sum_R sum_u ee es ⟨sh, hmem, -⟩
      exact absurd hmem (List.not_mem_nil _)
  | cons sh t ih =>
      rintro i hi sum_R sum_u ee es hex
      by_cases he : sh.e = ee
      · by_cases hs : sh.s = es
        · have hext : ∃ x ∈ t, x.e ≠ ee ∨ x.s ≠ es := by
            rcases hex with ⟨x, hx, hor⟩
            rcases List.mem_cons.mp hx with rfl | hxt
            · rcases hor with h | h
              · exact absurd he h
              · exact absurd hs h
            · exact ⟨x, hxt, hor⟩
          obtain ⟨x, hxt, hres⟩ :=
            ih (i + 1) (Nat.succ_ne_zero i) (sum_R + sh.R) (sum_u + sh.u) ee es hext
          refine ⟨x, List.mem_cons_of_mem _ hxt, ?_⟩
          have hred : aggregateLoop (sh :: t) i sum_R sum_u ee es =
              aggregateLoop t (i + 1) (sum_R + sh.R) (sum_u + sh.u) ee es := by
            simp only [aggregateLoop]
            rw [if_neg hi, if_neg (by simp [he]), if_neg (by simp [hs])]
          rw [hred]
          exact hres
        · refine ⟨sh, List.mem_cons_self _ _, Or.inr ⟨hs, ?_⟩⟩
          simp only [aggregateLoop]
          rw [if_neg hi, if_neg (by simp [he]), if_pos (Ne.symm hs)]
      · refine ⟨sh, List.mem_cons_self _ _, Or.inl ⟨he, ?_⟩⟩
        simp only [aggregateLoop]
        rw [if_neg hi, if_pos (Ne.symm he)]

/-- C2: for a non-empty share vector, when every share agrees with the first
on `e` and `s` and the summed `u` is invertible, `aggregate` returns the
signature `{A, e, s}` with `A = R_sum * u_sum⁻¹`; when some share deviates,
it fails with an error naming a participant whose share indeed deviates on
the reported component, and produces no signature. -/
theorem c2_aggregate_consistency (first : BBSPlusSignatureShare F G)
    (rest shares : List (BBSPlusSignatureShare F G))
    (hshape : shares = first :: rest) :
    ((∀ sh ∈ shares, sh.e = first.e ∧ sh.s = first.s) →
      (shares.map BBSPlusSignatureShare.u).sum ≠ 0 →
      aggregate shares = Outcome.ok
        ⟨((shares.map BBSPlusSignatureShare.u).sum)⁻¹ •
          (shares.map BBSPlusSignatureShare.R).sum, first.e, first.s⟩) ∧
    ((∃ sh ∈ shares, sh.e ≠ first.e ∨ sh.s ≠ first.s) →
      ∃ sh ∈ shares,
        (sh.e ≠ first.e ∧ aggregate shares =
          Outcome.err (BBSPlusError.IncorrectEByParticipant sh.id)) ∨
        (sh.s ≠ first.s ∧ aggregate shares =
          Outcome.err (BBSPlusError.IncorrectSByParticipant sh.id))) := by
  subst hshape
  have hstep : aggregate (first :: rest) =
      aggregateLoop rest 1 first.R first.u first.e first.s := by
    simp [aggregate, aggregateLoop]
  constructor
  · intro hc hne
    have hrest : ∀ x ∈ rest, x.e = first.e ∧ x.s = first.s :=
      fun x hx => hc x (List.mem_cons_of_mem _ hx)
    rw [hstep, aggregateLoop_all_agree rest 1 Nat.one_ne_zero _ _ _ _ hrest]
    simp only [List.map_cons, List.sum_cons] at hne ⊢
    rw [if_neg (by simpa using hne)]
  · intro hex
    have hext : ∃ x ∈ rest, x.e ≠ first.e ∨ x.s ≠ first.s := by
      rcases hex with ⟨x, hx, hor⟩
      rcases List.mem_cons.mp hx with rfl | hxt
      · rcases hor with h | h <;> exact absurd rfl h
      · exact ⟨x, hxt, hor⟩
    obtain ⟨x, hxt, hres⟩ := aggregateLoop_mismatch rest 1 Nat.one_ne_zero
      first.R first.u first.e first.s hext
    refine ⟨x, List.mem_cons_of_mem _ hxt, ?_⟩
    rw [hstep]
    exact hres

/-- Witness for C2: a concrete two-share aggregation over `ZMod 5` in which
both shares carry `e = 2`, `s = 3` and the `u` values sum to `1`. -/
theorem c2_aggregate_consistency_witness :
    aggregate ([⟨1, 2, 3, 3, 1⟩, ⟨2, 2, 3, 3, 1⟩] :
        List (BBSPlusSignatureShare (ZMod 5) (ZMod 5))) =
      Outcome.ok
        ⟨((([⟨1, 2, 3, 3, 1⟩, ⟨2, 2, 3, 3, 1⟩] :
            List (BBSPlusSignatureShare (ZMod 5) (ZMod 5))).map
            BBSPlusSignatureShare.u).sum)⁻¹ •
          (([⟨1, 2, 3, 3, 1⟩, ⟨2, 2, 3, 3, 1⟩] :
            List (BBSPlusSignatureShare (ZMod 5) (ZMod 5))).map
            BBSPlusSignatureShare.R).sum, 2, 3⟩ :=
  (c2_aggregate_consistency ⟨1, 2, 3, 3, 1⟩ [⟨2, 2, 3, 3, 1⟩] _ rfl).1
    (by decide) (by decide)

/-- C1: at the failing input — two shares that agree on `e` and `s` and
whose `u` values sum to the zero field element — `aggregate` reaches
`sum_u.inverse().unwrap()` and panics; it returns no error value, so there
is no recoverable `DegenerateAggregate` path in the code. -/
theorem c1_aggregate_panics_on_zero_u_sum :
    aggregate ([⟨1, 2, 3, 1, 1⟩, ⟨2, 2, 3, 4, 1⟩] :
        List (BBSPlusSignatureShare (ZMod 5) (ZMod 5))) = Outcome.panic ∧
    ∀ e, aggregate ([⟨1, 2, 3, 1, 1⟩, ⟨2, 2, 3, 4, 1⟩] :
        List (BBSPlusSignatureShare (ZMod 5) (ZMod 5))) ≠ Outcome.err e := by
  have hp : aggregate ([⟨1, 2, 3, 1, 1⟩, ⟨2, 2, 3, 4, 1⟩] :
      List (BBSPlusSignatureShare (ZMod 5) (ZMod 5))) = Outcome.panic := by decide
  exact ⟨hp, fun e h => by rw [hp] at h; exact Outcome.noConfusion h⟩

/-- C9: on the empty share vector the nonce-consistency loop checks nothing,
the accumulated `u` sum is zero and `aggregate` panics at the `unwrap` of
the nonexistent inverse; it never returns an error value there. -/
theorem c9_aggregate_empty_input_panics :
    aggregate ([] : List (BBSPlusSignatureShare F G)) = Outcome.panic ∧
    ∀ e, aggregate ([] : List (BBSPlusSignatureShare F G)) ≠ Outcome.err e := by
  have hp : aggregate ([] : List (BBSPlusSignatureShare F G)) = Outcome.panic := by
    simp [aggregate, aggregateLoop]
  exact ⟨hp, fun e h => by rw [hp] at h; exact Outcome.noConfusion h⟩

end AggregateTheorems

section ShareTheorems

variable {F G : Type} [Field F] [DecidableEq F] [AddCommGroup G] [Module F G]
variable [DecidableEq G]

/-- List indexing with a default agrees with checked indexing in bounds. -/
lemma getD_eq_get {α : Type} (l : List α) (k : Nat) (h : k < l.length) (d : α) :
    l.getD k d = l.get ⟨k, h⟩ := by
  rw [List.getD_eq_getD_get?, List.get?_eq_get h, Option.getD_some]

/-- C6: `new` rejects an empty message list with `NoMessageToSign`, and a
non-empty list whose length disagrees with the parameters with
`MessageCountIncompatibleWithSigParams`; in both cases the result is an
error, not a share. -/
theorem c6_new_message_validation
    (compute_R_and_u : G → F → F → F → F → Nat → Phase2Output F → G × F)
    (messages : List F) (index_in_output : Nat) (phase1 : Phase1Output F)
    (phase2 : Phase2Output F) (sig_params : SignatureParamsG1 F G) :
    (messages = [] →
      BBSPlusSignatureShare.new compute_R_and_u messages index_in_output phase1
        phase2 sig_params = Outcome.err BBSPlusError.NoMessageToSign) ∧
    (messages ≠ [] → messages.length ≠ sig_params.supported_message_count →
      BBSPlusSignatureShare.new compute_R_and_u messages index_in_output phase1
        phase2 sig_params = Outcome.err
          (BBSPlusError.MessageCountIncompatibleWithSigParams
            messages.length sig_params.supported_message_count)) := by
  constructor
  · intro h
    subst h
    simp [BBSPlusSignatureShare.new]
  · intro hne hlen
    simp only [BBSPlusSignatureShare.new]
    rw [if_neg (by simpa using hne), if_pos hlen]

/-- C8: every share returned successfully by `new_with_committed_messages`
or `new` carries `e = phase1.e[index]`, `s = phase1.s[index]` and
`id = phase1.id`, unmodified. -/
theorem c8_share_carries_agreed_values
    (compute_R_and_u : G → F → F → F → F → Nat → Phase2Output F → G × F)
    (commitment : G) (uncommitted_messages : List (Nat × F)) (messages : List F)
    (index_in_output : Nat) (phase1 : Phase1Output F) (phase2 : Phase2Output F)
    (sig_params : SignatureParamsG1 F G) :
    (∀ sh, BBSPlusSignatureShare.new_with_committed_messages compute_R_and_u
        commitment uncommitted_messages index_in_output phase1 phase2 sig_params =
        Outcome.ok sh →
      sh.e = phase1.e.getD index_in_output 0 ∧
      sh.s = phase1.s.getD index_in_output 0 ∧ sh.id = phase1.id) ∧
    (∀ sh, BBSPlusSignatureShare.new compute_R_and_u messages index_in_output
        phase1 phase2 sig_params = Outcome.ok sh →
      sh.e = phase1.e.getD index_in_output 0 ∧
      sh.s = phase1.s.getD index_in_output 0 ∧ sh.id = phase1.id) := by
  have hA : ∀ (um : List (Nat × F)) (comm : G) (sh : BBSPlusSignatureShare F G),
      BBSPlusSignatureShare.new_with_committed_messages compute_R_and_u comm um
        index_in_output phase1 phase2 sig_params = Outcome.ok sh →
      sh.e = phase1.e.getD index_in_output 0 ∧
      sh.s = phase1.s.getD index_in_output 0 ∧ sh.id = phase1.id := by
    intro um comm sh h
    simp only [BBSPlusSignatureShare.new_with_committed_messages] at h
    split at h
    · split at h
      · exact Outcome.noConfusion h
      · split at h
        · split at h
          · split at h
            · split at h
              · rw [Outcome.ok.injEq] at h
                subst h
                refine ⟨?_, ?_, rfl⟩
                · rw [getD_eq_get phase1.e index_in_output (by assumption) 0]
                · rw [getD_eq_get phase1.s index_in_output (by assumption) 0]
              · exact Outcome.noConfusion h
            · exact Outcome.noConfusion h
          · exact Outcome.noConfusion h
        · exact Outcome.noConfusion h
    · exact Outcome.noConfusion h
  refine ⟨hA uncommitted_messages commitment, ?_⟩
  intro sh h
  simp only [BBSPlusSignatureShare.new] at h
  split at h
  · exact Outcome.noConfusion h
  · split at h
    · exact Outcome.noConfusion h
    · exact hA messages.enum 0 sh h

/-- C10: with every `Phase1Output` vector of length `batch_size`,
`new_with_committed_messages` never panics for an index below `batch_size`
(all unchecked indexing is in bounds), and always panics for an index at or
above `batch_size` instead of returning an error. -/
theorem c10_new_with_committed_messages_index_bounds
    (compute_R_and_u : G → F → F → F → F → Nat → Phase2Output F → G × F)
    (commitment : G) (uncommitted_messages : List (Nat × F))
    (index_in_output : Nat) (phase1 : Phase1Output F) (phase2 : Phase2Output F)
    (sig_params : SignatureParamsG1 F G)
    (hs : phase1.s.length = phase1.batch_size)
    (hr : phase1.r.length = phase1.batch_size)
    (he : phase1.e.length = phase1.batch_size)
    (hm : phase1.masked_rs.length = phase1.batch_size)
    (hk : phase1.masked_signing_key_shares.length = phase1.batch_size) :
    (index_in_output < phase1.batch_size →
      BBSPlusSignatureShare.new_with_committed_messages compute_R_and_u commitment
        uncommitted_messages index_in_output phase1 phase2 sig_params ≠
        Outcome.panic) ∧
    (phase1.batch_size ≤ index_in_output →
      BBSPlusSignatureShare.new_with_committed_messages compute_R_and_u commitment
        uncommitted_messages index_in_output phase1 phase2 sig_params =
        Outcome.panic) := by
  constructor
  · intro hlt hpanic
    unfold BBSPlusSignatureShare.new_with_committed_messages at hpanic
    rw [dif_pos (by omega)] at hpanic
    split at hpanic
    · exact Outcome.noConfusion hpanic
    · rw [dif_pos (by omega), dif_pos (by omega), dif_pos (by omega),
        dif_pos (by omega)] at hpanic
      exact Outcome.noConfusion hpanic
  · intro hge
    unfold BBSPlusSignatureShare.new_with_committed_messages
    rw [dif_neg (by omega)]

/-- A concrete instantiation of the abstract `compute_R_and_u` collaborator
used by the witnesses. -/
def cRuDemo : ZMod 5 → ZMod 5 → ZMod 5 → ZMod 5 → ZMod 5 → Nat →
    Phase2Output (ZMod 5) → ZMod 5 × ZMod 5 :=
  fun _ _ _ _ _ _ _ => (0, 0)

/-- Concrete signature parameters supporting two messages, with a total
blinded-commitment function. -/
def spDemo : SignatureParamsG1 (ZMod 5) (ZMod 5) :=
  ⟨2, fun _ _ => Except.ok 0⟩

/-- A concrete single-slot `Phase1Output` used by the witnesses. -/
def p1Demo : Phase1Output (ZMod 5) := ⟨1, 1, [4], [2], [3], [0], [0], []⟩

/-- A concrete empty `Phase2Output` used by the witnesses. -/
def p2Demo : Phase2Output (ZMod 5) := ⟨1, [], []⟩

/-- Witness for C6: the empty message list and a one-message list against
two-message parameters, both rejected with the dedicated errors. -/
theorem c6_new_message_validation_witness :
    BBSPlusSignatureShare.new cRuDemo ([] : List (ZMod 5)) 0 p1Demo p2Demo
      spDemo = Outcome.err BBSPlusError.NoMessageToSign ∧
    BBSPlusSignatureShare.new cRuDemo [(1 : ZMod 5)] 0 p1Demo p2Demo spDemo =
      Outcome.err (BBSPlusError.MessageCountIncompatibleWithSigParams 1 2) :=
  ⟨(c6_new_message_validation cRuDemo [] 0 p1Demo p2Demo spDemo).1 rfl,
   (c6_new_message_validation cRuDemo [(1 : ZMod 5)] 0 p1Demo p2Demo spDemo).2
     (by decide) (by decide)⟩

/-- Witness for C8: a concrete successful share construction; the returned
share carries the slot `e = 2`, `s = 3` and the participant id `1` of the
concrete `Phase1Output`. -/
theorem c8_share_carries_agreed_values_witness :
    (⟨1, 2, 3, 0, 0⟩ : BBSPlusSignatureShare (ZMod 5) (ZMod 5)).e =
      p1Demo.e.getD 0 0 ∧
    (⟨1, 2, 3, 0, 0⟩ : BBSPlusSignatureShare (ZMod 5) (ZMod 5)).s =
      p1Demo.s.getD 0 0 ∧
    (⟨1, 2, 3, 0, 0⟩ : BBSPlusSignatureShare (ZMod 5) (ZMod 5)).id = p1Demo.id :=
  (c8_share_carries_agreed_values cRuDemo 0 [] [] 0 p1Demo p2Demo spDemo).1
    ⟨1, 2, 3, 0, 0⟩ (by decide)

/-- Witness for C10: on the concrete single-slot `Phase1Output`, index `0`
does not panic and index `1` panics. -/
theorem c10_new_with_committed_messages_index_bounds_witness :
    BBSPlusSignatureShare.new_with_committed_messages cRuDemo 0 [] 0 p1Demo
      p2Demo spDemo ≠ Outcome.panic ∧
    BBSPlusSignatureShare.new_with_committed_messages cRuDemo 0 [] 1 p1Demo
      p2Demo spDemo = Outcome.panic :=
  ⟨(c10_new_with_committed_messages_index_bounds cRuDemo 0 [] 0 p1Demo p2Demo
      spDemo rfl rfl rfl rfl rfl).1 (by decide),
   (c10_new_with_committed_messages_index_bounds cRuDemo 0 [] 1 p1Demo p2Demo
      spDemo rfl rfl rfl rfl rfl).2 (by decide)⟩

end ShareTheorems

section Phase1Theorems

variable {F : Type} [Field F] [DecidableEq F]

/-- Sampling draws exactly the requested number of elements. -/
lemma sample_length (rng : Rng F) (n : Nat) : (rng.sample n).1.length = n := by
  induction n generalizing rng with
  | zero => simp [Rng.sample]
  | succ n ih => simp [Rng.sample, Rng.next, ih]

/-- The pairwise zero-sharing samples are keyed by the peer list, in
order. -/
lemma samplePairShares_keys (rng : Rng F) (peers : List ParticipantId)
    (count : Nat) : (samplePairShares rng peers count).1.map Prod.fst = peers := by
  induction peers generalizing rng with
  | nil => simp [samplePairShares]
  | cons j rest ih => simp [samplePairShares, ih]

/-- Every pairwise zero-sharing sample holds one value per requested slot. -/
lemma samplePairShares_lengths (rng : Rng F) (peers : List ParticipantId)
    (count : Nat) :
    ∀ t ∈ (samplePairShares rng peers count).1, t.2.2.length = count := by
  induction peers generalizing rng with
  | nil => simp [samplePairShares]
  | cons j rest ih =>
      intro t ht
      simp only [samplePairShares, List.mem_cons] at ht
      rcases ht with rfl | ht
      · exact sample_length rng count
      · exact ih _ t ht

/-- C3 (spec-modelled sub-protocols): whenever some expected peer
contribution to the coin-toss or the zero-sharing exchange is missing,
`finish_for_bbs_plus` fails with the incomplete-round error, and in
particular never returns a `Phase1Output`. -/
theorem c3_finish_fails_when_round_incomplete (st : Phase1 F) (signing_key : F)
    (hmiss : ∃ j ∈ st.zero_sharing_protocol.others,
      st.commitment_protocol.other_shares.lookup j = none ∨
      st.zero_sharing_protocol.peer_pair_shares.lookup j = none) :
    st.finish_for_bbs_plus signing_key =
      Except.error BBSPlusError.IncompleteRound := by
  obtain ⟨j, hj, hcase⟩ := hmiss
  have hcompute :
      st.compute_joint_randomness_and_masked_arguments_to_multiply signing_key =
        Except.error BBSPlusError.IncompleteRound := by
    unfold Phase1.compute_joint_randomness_and_masked_arguments_to_multiply
    by_cases hall : (st.zero_sharing_protocol.others.all fun j =>
        (st.commitment_protocol.other_shares.lookup j).isSome) = true
    · rw [if_pos hall]
      have hsome := List.all_eq_true.mp hall j hj
      have hpeer : st.zero_sharing_protocol.peer_pair_shares.lookup j = none := by
        rcases hcase with h | h
        · rw [h] at hsome
          exact absurd hsome (by simp)
        · exact h
      have hzs : st.zero_sharing_protocol.computeZeroShares =
          Except.error BBSPlusError.IncompleteRound := by
        unfold ZeroSharingParty.computeZeroShares
        rw [if_neg ?_]
        intro hall2
        have h2 := List.all_eq_true.mp hall2 j hj
        rw [hpeer] at h2
        simp at h2
      rw [hzs]
    · rw [if_neg hall]
  unfold Phase1.finish_for_bbs_plus
  rw [hcompute]

/-- A concrete single-peer Phase 1 state in which peer `2` has revealed
nothing in either sub-protocol. -/
def stIncomplete : Phase1 (ZMod 5) :=
  ⟨1, 1, [0], ⟨1, [], 0, [0, 0], []⟩, ⟨1, 2, [2], [], [(2, 0, [0, 0])], []⟩⟩

/-- Witness for C3: the concrete incomplete state makes
`finish_for_bbs_plus` fail with the incomplete-round error. -/
theorem c3_finish_fails_when_round_incomplete_witness :
    stIncomplete.finish_for_bbs_plus (0 : ZMod 5) =
      Except.error BBSPlusError.IncompleteRound :=
  c3_finish_fails_when_round_incomplete stIncomplete 0 (by decide)

/-- C5 (spec-modelled joint randomness): a successful
`finish_for_bbs_plus` on a state whose coin-toss run holds `2*batch_size`
slots partitions the joint randomness in order, the first `batch_size`
values as `e` and the remainder as `s`, each of length `batch_size`. -/
theorem c5_finish_partitions_joint_randomness (st : Phase1 F) (signing_key : F)
    (o : Phase1Output F)
    (hlen : st.commitment_protocol.own_shares.length = 2 * st.batch_size)
    (hok : st.finish_for_bbs_plus signing_key = Except.ok o) :
    o.e = st.commitment_protocol.jointRandomness.take st.batch_size ∧
    o.s = st.commitment_protocol.jointRandomness.drop st.batch_size ∧
    o.e.length = st.batch_size ∧ o.s.length = st.batch_size := by
  have hjlen : st.commitment_protocol.jointRandomness.length = 2 * st.batch_size := by
    simp [CointossParty.jointRandomness, hlen]
  simp only [Phase1.finish_for_bbs_plus] at hok
  rcases hcomp : st.compute_joint_randomness_and_masked_arguments_to_multiply
    signing_key with e | tup
  · rw [hcomp] at hok
    exact Except.noConfusion hok
  · obtain ⟨others, randomness, msks, mrs⟩ := tup
    simp only [hcomp] at hok
    have hrand : randomness = st.commitment_protocol.jointRandomness := by
      simp only [Phase1.compute_joint_randomness_and_masked_arguments_to_multiply]
        at hcomp
      by_cases hall : (st.zero_sharing_protocol.others.all fun j =>
          (st.commitment_protocol.other_shares.lookup j).isSome) = true
      · rw [if_pos hall] at hcomp
        rcases hzs : st.zero_sharing_protocol.computeZeroShares with e | zs
        · rw [hzs] at hcomp
          exact Except.noConfusion hcomp
        · simp only [hzs] at hcomp
          rw [Except.ok.injEq, Prod.mk.injEq, Prod.mk.injEq, Prod.mk.injEq]
            at hcomp
          exact hcomp.2.1.symm
      · rw [if_neg hall] at hcomp
        exact Except.noConfusion hcomp
    rw [Except.ok.injEq] at hok
    subst hok
    refine ⟨by rw [hrand], by rw [hrand], ?_, ?_⟩
    · simp only [List.length_take, hrand, hjlen]
      omega
    · simp only [List.length_drop, hrand, hjlen]
      omega

/-- A concrete complete single-peer Phase 1 state: peer `2` has revealed in
both sub-protocols, so `finish_for_bbs_plus` succeeds. -/
def stComplete : Phase1 (ZMod 5) :=
  ⟨1, 1, [0], ⟨1, [], 0, [0, 0], [(2, [0, 0])]⟩,
    ⟨1, 2, [2], [], [(2, 0, [0, 0])], [(2, [0, 0])]⟩⟩

/-- Witness for C5: the concrete complete state yields an output whose `e`
and `s` are the two halves of the joint randomness, each one slot long. -/
theorem c5_finish_partitions_joint_randomness_witness :
    (⟨1, 1, [0], [0], [0], [0], [0], [2]⟩ : Phase1Output (ZMod 5)).e =
      stComplete.commitment_protocol.jointRandomness.take
        stComplete.batch_size ∧
    (⟨1, 1, [0], [0], [0], [0], [0], [2]⟩ : Phase1Output (ZMod 5)).s =
      stComplete.commitment_protocol.jointRandomness.drop
        stComplete.batch_size ∧
    (⟨1, 1, [0], [0], [0], [0], [0], [2]⟩ : Phase1Output (ZMod 5)).e.length =
      stComplete.batch_size ∧
    (⟨1, 1, [0], [0], [0], [0], [0], [2]⟩ : Phase1Output (ZMod 5)).s.length =
      stComplete.batch_size :=
  c5_finish_partitions_joint_randomness stComplete 0
    ⟨1, 1, [0], [0], [0], [0], [0], [2]⟩ rfl rfl

/-- Auxiliary: projecting the keys back out of the per-peer commitment
bundle. -/
lemma map_fst_pair_map {α β γ : Type} (l : List (α × β)) (g : α × β → γ) :
    (l.map fun t => (t.1, g t)).map Prod.fst = l.map Prod.fst := by
  induction l with
  | nil => rfl
  | cons a t ih => simp [ih]

/-- C7 (spec-modelled sub-protocols): `init_for_bbs_plus` with batch size
`B` samples exactly `B` private `r` values, starts one coin-toss run over
`2*B` slots, starts one zero-sharing run over `2*B` slots with the given
peer set, and returns the state together with the commitment of the
coin-toss run and the per-peer commitments of the zero-sharing run. -/
theorem c7_init_for_bbs_plus_shape (rng : Rng F) (batch_size : Nat)
    (id : ParticipantId) (others : List ParticipantId)
    (protocol_id : List Nat) :
    (Phase1.init_for_bbs_plus rng batch_size id others protocol_id).1.1.r =
      (rng.sample batch_size).1 ∧
    (Phase1.init_for_bbs_plus rng batch_size id others
      protocol_id).1.1.r.length = batch_size ∧
    (Phase1.init_for_bbs_plus rng batch_size id others
      protocol_id).1.1.commitment_protocol.own_shares.length = 2 * batch_size ∧
    (Phase1.init_for_bbs_plus rng batch_size id others
      protocol_id).1.1.zero_sharing_protocol.count = 2 * batch_size ∧
    (Phase1.init_for_bbs_plus rng batch_size id others
      protocol_id).1.1.zero_sharing_protocol.others = others ∧
    (∀ t ∈ (Phase1.init_for_bbs_plus rng batch_size id others
      protocol_id).1.1.zero_sharing_protocol.own_pair_shares,
      t.2.2.length = 2 * batch_size) ∧
    (Phase1.init_for_bbs_plus rng batch_size id others protocol_id).1.2.1 =
      ⟨id, protocol_id,
        (Phase1.init_for_bbs_plus rng batch_size id others
          protocol_id).1.1.commitment_protocol.salt,
        (Phase1.init_for_bbs_plus rng batch_size id others
          protocol_id).1.1.commitment_protocol.own_shares⟩ ∧
    (Phase1.init_for_bbs_plus rng batch_size id others
      protocol_id).1.2.2.map Prod.fst = others := by
  refine ⟨rfl, sample_length rng batch_size, sample_length _ _, rfl, rfl,
    samplePairShares_lengths _ _ _, rfl, ?_⟩
  show ((samplePairShares (((rng.sample batch_size).2.sample
      (2 * batch_size)).2.next.2) others (2 * batch_size)).1.map fun t =>
      (t.1, (⟨id, protocol_id, t.2.1, t.2.2⟩ : Commitments F))).map Prod.fst =
      others
  rw [map_fst_pair_map]
  exact samplePairShares_keys _ _ _

end Phase1Theorems

section KeyShareSums

variable {F : Type} [Field F] [DecidableEq F]

/-- Indexing a mapped list inside its bounds. -/
lemma getD_map_lt (f : F → F) : ∀ (l : List F) (k : Nat), k < l.length →
    (l.map f).getD k 0 = f (l.getD k 0)
  | [], k, h => absurd h (by simp)
  | a :: t, 0, _ => rfl
  | a :: t, k + 1, h => getD_map_lt f t k (by simpa using h)

/-- Indexing a truncated list below the truncation point. -/
lemma getD_take_lt : ∀ (l : List F) (B k : Nat), k < B →
    (l.take B).getD k 0 = l.getD k 0
  | _, 0, k, h => absurd h (Nat.not_lt_zero k)
  | [], _ + 1, _, _ => by simp
  | _ :: _, _ + 1, 0, _ => rfl
  | _ :: t, B + 1, k + 1, h => getD_take_lt t B k (by omega)

/-- A list sum of pointwise sums splits. -/
lemma sum_map_add {α : Type} (f g : α → F) (l : List α) :
    (l.map fun x => f x + g x).sum = (l.map f).sum + (l.map g).sum := by
  induction l with
  | nil => simp
  | cons a t ih => simp [ih, add_add_add_comm]

/-- Adding a constant to every entry adds the length-weighted constant to
the sum. -/
lemma sum_map_const_add (c : F) : ∀ l : List F,
    (l.map fun a => c + a).sum = (l.length : F) * c + l.sum
  | [] => by simp
  | a :: t => by
      have ih := sum_map_const_add c t
      simp only [List.map_cons, List.sum_cons, List.length_cons, ih]
      push_cast
      ring

/-- Multiplying every entry by a constant multiplies the sum. -/
lemma sum_map_mul_left {α : Type} (c : F) (f : α → F) (l : List α) :
    (l.map fun x => c * f x).sum = c * (l.map f).sum := by
  induction l with
  | nil => simp
  | cons a t ih => simp [ih, mul_add]

/-- The sum of the first `B` entries, written over `List.range B`. -/
lemma take_sum_eq_range_sum (l : List F) : ∀ B : Nat, B ≤ l.length →
    (l.take B).sum = ((List.range B).map fun k => l.getD k 0).sum := by
  intro B
  induction B with
  | zero => simp
  | succ B ih =>
      intro h
      have hB : B < l.length := by omega
      rw [List.take_succ, List.sum_append, ih (by omega), List.range_succ,
        List.map_append, List.sum_append]
      simp [List.getElem?_eq_getElem hB, getD_eq_get l B hB,
        List.getD_eq_getD_get?, List.get?_eq_get hB]

/-- Exchanging a sum over participants with a sum over slots. -/
lemma sum_comm_range {α : Type} (B : Nat) (f : α → Nat → F) (ps : List α) :
    (ps.map fun p => ((List.range B).map (f p)).sum).sum =
      ((List.range B).map fun k => (ps.map fun p => f p k).sum).sum := by
  induction ps with
  | nil => simp
  | cons p t ih =>
      simp only [List.map_cons, List.sum_cons, ih]
      rw [← sum_map_add]

/-- A successful zero-share computation yields one offset per slot. -/
lemma computeZeroShares_ok_length (p : ZeroSharingParty F) (zs : List F)
    (h : p.computeZeroShares = Except.ok zs) : zs.length = p.count := by
  unfold ZeroSharingParty.computeZeroShares at h
  by_cases hall : (p.others.all fun j =>
      (p.own_pair_shares.lookup j).isSome &&
      (p.peer_pair_shares.lookup j).isSome) = true
  · rw [if_pos hall, Except.ok.injEq] at h
    rw [← h]
    simp
  · rw [if_neg hall] at h
    exact Except.noConfusion h

/-- A successful `finish_for_bbs_plus` arises from a successful zero-share
computation, and its masked key shares are the signing-key share offset by
the first `batch_size` zero-share slots. -/
lemma finish_ok_masked (st : Phase1 F) (skp : F) (o : Phase1Output F)
    (h : st.finish_for_bbs_plus skp = Except.ok o) :
    ∃ zs : List F, st.zero_sharing_protocol.computeZeroShares = Except.ok zs ∧
      zs.length = st.zero_sharing_protocol.count ∧
      o.masked_signing_key_shares =
        (zs.take st.batch_size).map fun a => skp + a := by
  simp only [Phase1.finish_for_bbs_plus] at h
  rcases hcomp : st.compute_joint_randomness_and_masked_arguments_to_multiply
    skp with e | tup
  · rw [hcomp] at h
    exact Except.noConfusion h
  · obtain ⟨others, randomness, msks, mrs⟩ := tup
    simp only [hcomp] at h
    rw [Except.ok.injEq] at h
    subst h
    simp only [Phase1.compute_joint_randomness_and_masked_arguments_to_multiply]
      at hcomp
    by_cases hall : (st.zero_sharing_protocol.others.all fun j =>
        (st.commitment_protocol.other_shares.lookup j).isSome) = true
    · rw [if_pos hall] at hcomp
      rcases hzs : st.zero_sharing_protocol.computeZeroShares with e | zs
      · rw [hzs] at hcomp
        exact Except.noConfusion hcomp
      · simp only [hzs] at hcomp
        rw [Except.ok.injEq, Prod.mk.injEq, Prod.mk.injEq, Prod.mk.injEq]
          at hcomp
        exact ⟨zs, rfl,
          computeZeroShares_ok_length st.zero_sharing_protocol zs hzs,
          hcomp.2.2.1.symm⟩
    · rw [if_neg hall] at hcomp
      exact Except.noConfusion hcomp

/-- Below `batch_size`, a masked key share is the signing-key share plus the
zero-share offset of that slot. -/
lemma masked_getD (st : Phase1 F) (skp : F) (o : Phase1Output F) (B k : Nat)
    (hok : st.finish_for_bbs_plus skp = Except.ok o)
    (hbatch : st.batch_size = B)
    (hcnt : st.zero_sharing_protocol.count = 2 * B) (hk : k < B) :
    o.masked_signing_key_shares.getD k 0 = skp + zeroShareOffset st k := by
  obtain ⟨zs, hzs, hlen, hmask⟩ := finish_ok_masked st skp o hok
  have hzlen : zs.length = 2 * B := by omega
  have hktake : k < (zs.take st.batch_size).length := by
    simp [List.length_take]
    omega
  rw [hmask, getD_map_lt _ _ k hktake, getD_take_lt zs st.batch_size k
    (by omega), zeroShareOffset, hzs]

/-- The sum of one participant masked key-share vector: the length-weighted
signing-key share plus that participant zero-share offsets over the first
`batch_size` slots. -/
lemma masked_sum (st : Phase1 F) (skp : F) (o : Phase1Output F) (B : Nat)
    (hok : st.finish_for_bbs_plus skp = Except.ok o)
    (hbatch : st.batch_size = B)
    (hcnt : st.zero_sharing_protocol.count = 2 * B) :
    o.masked_signing_key_shares.sum =
      (B : F) * skp + ((List.range B).map fun k => zeroShareOffset st k).sum := by
  obtain ⟨zs, hzs, hlen, hmask⟩ := finish_ok_masked st skp o hok
  have hzlen : zs.length = 2 * B := by omega
  have htlen : (zs.take st.batch_size).length = B := by
    simp [List.length_take]
    omega
  have hoff : ∀ k : Nat, zs.getD k 0 = zeroShareOffset st k := by
    intro k
    rw [zeroShareOffset, hzs]
  rw [hmask, sum_map_const_add, htlen,
    take_sum_eq_range_sum zs st.batch_size (by omega), hbatch]
  congr 1
  exact congrArg List.sum (List.map_congr_left fun k _ => hoff k)

/-- Pointwise equal summands over related lists give equal sums. -/
lemma sum_map_congr_forall₂ {α β : Type} (R : α → β → Prop) (f : β → F)
    (g : α → F) : ∀ (l₁ : List α) (l₂ : List β), List.Forall₂ R l₁ l₂ →
    (∀ a b, a ∈ l₁ → R a b → f b = g a) → (l₂.map f).sum = (l₁.map g).sum := by
  intro l₁ l₂ hrel
  induction hrel with
  | nil => intro _; rfl
  | cons hab htail ih =>
      intro hfg
      simp only [List.map_cons, List.sum_cons]
      rw [hfg _ _ (List.mem_cons_self _ _) hab,
        ih fun a b ha hr => hfg a b (List.mem_cons_of_mem _ ha) hr]

/-- C4 (amended, spec-modelled zero-sharing): in a run where the secret key
is dealt as the sum of the per-participant signing-key shares and the
zero-share offsets cancel per slot, the sum over all participants of
`masked_signing_key_shares[k]` equals `secret_key` for every slot
`k < batch_size` — and therefore the sum over all participants and all
`batch_size` slots equals `secret_key * batch_size`, which is the aggregate
the test of the source asserts. -/
theorem c4_masked_key_share_sum (parts : List (Phase1 F × F))
    (outs : List (Phase1Output F)) (sk : F) (B : Nat)
    (hfin : List.Forall₂ (fun p o => p.1.finish_for_bbs_plus p.2 = Except.ok o)
      parts outs)
    (hB : ∀ p ∈ parts, p.1.batch_size = B)
    (hcount : ∀ p ∈ parts, p.1.zero_sharing_protocol.count = 2 * B)
    (hsk : (parts.map fun p => p.2).sum = sk)
    (hcancel : ∀ k, k < B →
      (parts.map fun p => zeroShareOffset p.1 k).sum = 0) :
    (∀ k, k < B →
      (outs.map fun o => o.masked_signing_key_shares.getD k 0).sum = sk) ∧
    (outs.map fun o => o.masked_signing_key_shares.sum).sum = sk * (B : F) := by
  constructor
  · intro k hk
    have hpt : (outs.map fun o => o.masked_signing_key_shares.getD k 0).sum =
        (parts.map fun p => p.2 + zeroShareOffset p.1 k).sum := by
      refine sum_map_congr_forall₂ _ _ _ parts outs hfin ?_
      intro p o hp hok
      exact masked_getD p.1 p.2 o B k hok (hB p hp) (hcount p hp) hk
    rw [hpt, sum_map_add, hsk, hcancel k hk, add_zero]
  · have htot : (outs.map fun o => o.masked_signing_key_shares.sum).sum =
        (parts.map fun p => (B : F) * p.2 +
          ((List.range B).map fun k => zeroShareOffset p.1 k).sum).sum := by
      refine sum_map_congr_forall₂ _ _ _ parts outs hfin ?_
      intro p o hp hok
      exact masked_sum p.1 p.2 o B hok (hB p hp) (hcount p hp)
    rw [htot, sum_map_add, sum_map_mul_left, hsk, sum_comm_range]
    have hzero : ((List.range B).map fun k =>
        (parts.map fun p => zeroShareOffset p.1 k).sum).sum = 0 := by
      have : ∀ k ∈ List.range B, (parts.map fun p =>
          zeroShareOffset p.1 k).sum = (fun _ : Nat => (0 : F)) k := by
        intro k hkr
        exact hcancel k (List.mem_range.mp hkr)
      rw [List.map_congr_left this]
      simp
    rw [hzero, add_zero, mul_comm]

/-- First participant of the concrete two-party run: id `1`, batch size `2`,
peer `2`, all coin-toss shares and pairwise zero shares zero. -/
def c4part1 : Phase1 (ZMod 5) :=
  ⟨1, 2, [0, 0], ⟨1, [], 0, [0, 0, 0, 0], [(2, [0, 0, 0, 0])]⟩,
    ⟨1, 4, [2], [], [(2, 0, [0, 0, 0, 0])], [(2, [0, 0, 0, 0])]⟩⟩

/-- Second participant of the concrete two-party run. -/
def c4part2 : Phase1 (ZMod 5) :=
  ⟨2, 2, [0, 0], ⟨2, [], 0, [0, 0, 0, 0], [(1, [0, 0, 0, 0])]⟩,
    ⟨2, 4, [1], [], [(1, 0, [0, 0, 0, 0])], [(1, [0, 0, 0, 0])]⟩⟩

/-- The concrete run: both participants hold the signing-key share `3`, so
the dealt secret key is `3 + 3 = 1` over `ZMod 5`. -/
def c4parts : List (Phase1 (ZMod 5) × ZMod 5) := [(c4part1, 3), (c4part2, 3)]

/-- The two Phase 1 outputs of the concrete run. -/
def c4outs : List (Phase1Output (ZMod 5)) :=
  [⟨1, 2, [0, 0], [0, 0], [0, 0], [3, 3], [0, 0], [2]⟩,
   ⟨2, 2, [0, 0], [0, 0], [0, 0], [3, 3], [0, 0], [1]⟩]

/-- Counterexample to C4 as stated: in the concrete two-party run with
batch size `2` and secret key `1 = 3 + 3` over `ZMod 5`, the zero-share
offsets cancel per slot, yet the sum over participants of
`masked_signing_key_shares[0]` is `1 = secret_key`, not
`secret_key * batch_size = 2`. -/
theorem c4_claim_counterexample :
    List.Forall₂ (fun (p : Phase1 (ZMod 5) × ZMod 5)
        (o : Phase1Output (ZMod 5)) =>
      p.1.finish_for_bbs_plus p.2 = Except.ok o) c4parts c4outs ∧
    (c4parts.map fun p => p.2).sum = (1 : ZMod 5) ∧
    (∀ p ∈ c4parts, p.1.batch_size = 2) ∧
    (∀ p ∈ c4parts, p.1.zero_sharing_protocol.count = 2 * 2) ∧
    (∀ k, k < 2 → (c4parts.map fun p => zeroShareOffset p.1 k).sum = 0) ∧
    ¬ ((c4outs.map fun o => o.masked_signing_key_shares.getD 0 0).sum =
        (1 : ZMod 5) * ((2 : Nat) : ZMod 5)) := by
  refine ⟨List.Forall₂.cons rfl (List.Forall₂.cons rfl List.Forall₂.nil),
    by decide, by decide, by decide, by decide, by decide⟩

/-- Witness for the amended C4 at the concrete two-party run: per slot the
participant sum is the secret key `1`, and the aggregate over both slots and
both participants is `1 * 2`. -/
theorem c4_masked_key_share_sum_witness :
    (∀ k, k < 2 →
      (c4outs.map fun o => o.masked_signing_key_shares.getD k 0).sum =
        (1 : ZMod 5)) ∧
    (c4outs.map fun o => o.masked_signing_key_shares.sum).sum =
      (1 : ZMod 5) * ((2 : Nat) : ZMod 5) :=
  c4_masked_key_share_sum c4parts c4outs 1 2
    (List.Forall₂.cons rfl (List.Forall₂.cons rfl List.Forall₂.nil))
    (by decide) (by decide) (by decide) (by decide)

end KeyShareSums

end ThresholdBBS
